import Mathlib

/-!
Verification of the version-resolution and installer-locator logic of the
setup-cuda action.  The TypeScript sources are embedded shallowly: pure
string manipulation becomes functions on `String` / `List Char`, the
`fetch` boundaries become explicit parameters (a failed fetch contributes
`none`, mirroring `Promise.allSettled` handling), and thrown errors become
`Except` values.  JavaScript `Array.prototype.sort` with a comparator is
modelled by the stable `List.insertionSort`; JS `Set` insertion-order
deduplication is modelled by `dedupFirst`.
-/

set_option maxRecDepth 10000

/-- JS `string.split('.')` on the underlying character list: splits at every
`'.'`, keeping empty segments; the empty string yields one empty segment. -/
def splitDots : List Char → List (List Char)
  | [] => [[]]
  | c :: rest =>
    if c = '.' then [] :: splitDots rest
    else
      match splitDots rest with
      | [] => [[c]]
      | h :: t => (c :: h) :: t

/-- Value of a list of decimal digits, most significant first. -/
def digitsToNat (cs : List Char) : Nat :=
  cs.foldl (fun acc c => acc * 10 + (c.toNat - '0'.toNat)) 0

/-- JS `parseInt(s, 10)` restricted to the shapes that occur here: the maximal
leading run of decimal digits, `none` when there is none (JS `NaN`). -/
def parseIntOpt (cs : List Char) : Option Nat :=
  let ds := cs.takeWhile Char.isDigit
  if ds.isEmpty then none else some (digitsToNat ds)

/-- JS `Number(component) || 0` as used on version components: a non-empty
all-digit component denotes its value, anything else contributes `0`
(`Number` of junk is `NaN`, and `NaN || 0` is `0`; `Number("")` is `0`). -/
def numValue (cs : List Char) : Int :=
  if cs.isEmpty then 0
  else if cs.all Char.isDigit then (digitsToNat cs : Int) else 0

/-- The integer components of a version string, exactly as
`a.split('.').map(Number)` produces them (with the `|| 0` fallback). -/
def versionParts (s : String) : List Int :=
  (splitDots s.data).map numValue

/-- Remaining comparison once the left version has run out of components:
each further right component is compared against `0`. -/
def cmpZero : List Int → Int
  | [] => 0
  | b :: bs => if 0 ≠ b then 0 - b else cmpZero bs

/-- Core loop of `compareVersions`: compare components left to right, a
missing component counting as `0`; the first unequal pair decides. -/
def cmpParts : List Int → List Int → Int
  | [], bs => cmpZero bs
  | a :: as, [] => if a ≠ 0 then a else cmpParts as []
  | a :: as, b :: bs => if a ≠ b then a - b else cmpParts as bs
termination_by structural as _ => as

/-- `compareVersions` from `utils.ts`: negative when `a < b`, zero when equal,
positive when `a > b`, comparing dot-separated integer components. -/
def compareVersions (a b : String) : Int :=
  cmpParts (versionParts a) (versionParts b)

/-- The comparator order induced by `compareVersions`. -/
def vle (a b : String) : Prop :=
  compareVersions a b ≤ 0

instance : DecidableRel vle := fun a b =>
  inferInstanceAs (Decidable (compareVersions a b ≤ 0))

/-- `sortVersions` from `utils.ts`: `versions.sort(compareVersions)`;
JS sort with a consistent comparator produces a stable sorted array, which
`List.insertionSort` reproduces. -/
def sortVersions (versions : List String) : List String :=
  List.insertionSort vle versions

/-- Padded component access: component `i`, `0` when out of range. -/
def part (l : List Int) (i : Nat) : Int :=
  l.getD i 0

theorem cmpParts_self (l : List Int) : cmpParts l l = 0 := by
  induction l with
  | nil => simp [cmpParts, cmpZero]
  | cons a as ih => simp [cmpParts, ih]

theorem cmpParts_neg : ∀ as bs : List Int, cmpParts bs as = -cmpParts as bs
  | [], [] => by simp [cmpParts, cmpZero]
  | [], b :: bs => by
    simp only [cmpParts, cmpZero]
    by_cases h : b = 0
    · subst h; simpa [cmpParts, cmpZero] using cmpParts_neg [] bs
    · rw [if_pos (by omega : b ≠ 0), if_pos (by omega : (0 : Int) ≠ b)]; omega
  | a :: as, [] => by
    simp only [cmpParts, cmpZero]
    by_cases h : a = 0
    · subst h; simpa [cmpParts, cmpZero] using cmpParts_neg as []
    · rw [if_pos (by omega : (0 : Int) ≠ a), if_pos (by omega : a ≠ 0)]; omega
  | a :: as, b :: bs => by
    simp only [cmpParts, cmpZero]
    by_cases h : a = b
    · subst h; simpa [cmpParts, cmpZero] using cmpParts_neg as bs
    · rw [if_pos (by omega : b ≠ a), if_pos (by omega : a ≠ b)]; omega

theorem cmpParts_eq_zero_iff :
    ∀ as bs : List Int, cmpParts as bs = 0 ↔ ∀ i, part as i = part bs i
  | [], [] => by simp [cmpParts, cmpZero, part]
  | [], b :: bs => by
    constructor
    · intro h i
      by_cases hb : b = 0
      · subst hb
        simp only [cmpParts, cmpZero, ne_eq, not_true_eq_false, if_false] at h
        cases i with
        | zero => simp [part]
        | succ n => simpa [part] using (cmpParts_eq_zero_iff [] bs).1 h n
      · simp only [cmpParts, cmpZero] at h
        rw [if_pos (by omega : (0 : Int) ≠ b)] at h
        exact absurd h (by omega)
    · intro h
      have h0 : (0 : Int) = b := by simpa [part] using h 0
      have hrest : ∀ i, part ([] : List Int) i = part bs i := by
        intro i; simpa [part] using h (i + 1)
      simp only [cmpParts, cmpZero, ← h0, ne_eq, not_true_eq_false, if_false]
      exact (cmpParts_eq_zero_iff [] bs).2 hrest
  | a :: as, [] => by
    constructor
    · intro h i
      by_cases ha : a = 0
      · subst ha
        simp only [cmpParts, cmpZero, ne_eq, not_true_eq_false, if_false] at h
        cases i with
        | zero => simp [part]
        | succ n => simpa [part] using (cmpParts_eq_zero_iff as []).1 h n
      · simp only [cmpParts, cmpZero] at h
        rw [if_pos (by omega : a ≠ 0)] at h
        exact absurd h ha
    · intro h
      have h0 : a = 0 := by simpa [part] using h 0
      have hrest : ∀ i, part as i = part ([] : List Int) i := by
        intro i; simpa [part] using h (i + 1)
      simp [cmpParts, cmpZero, h0, (cmpParts_eq_zero_iff as []).2 hrest]
  | a :: as, b :: bs => by
    constructor
    · intro h i
      by_cases hab : a = b
      · subst hab
        simp only [cmpParts, cmpZero, ne_eq, not_true_eq_false, if_false] at h
        cases i with
        | zero => simp [part]
        | succ n => simpa [part] using (cmpParts_eq_zero_iff as bs).1 h n
      · simp only [cmpParts, cmpZero] at h
        rw [if_pos (by omega : a ≠ b)] at h
        exact absurd h (by omega)
    · intro h
      have h0 : a = b := by simpa [part] using h 0
      have hrest : ∀ i, part as i = part bs i := by
        intro i; simpa [part] using h (i + 1)
      simp [cmpParts, cmpZero, h0, (cmpParts_eq_zero_iff as bs).2 hrest]

/-- Lexicographic strict order on padded component sequences. -/
def lexLt (f g : Nat → Int) : Prop :=
  ∃ i, (∀ j, j < i → f j = g j) ∧ f i < g i

theorem cmpParts_lt_iff :
    ∀ as bs : List Int, cmpParts as bs < 0 ↔ lexLt (part as) (part bs)
  | [], [] => by
    simp only [lexLt]
    constructor
    · intro h; simp [cmpParts, cmpZero] at h
    · rintro ⟨i, -, hi⟩; simp [part] at hi
  | [], b :: bs => by
    constructor
    · intro h
      by_cases hb : b = 0
      · subst hb
        simp only [cmpParts, cmpZero, ne_eq, not_true_eq_false, if_false] at h
        obtain ⟨i, hei, hlt⟩ := (cmpParts_lt_iff [] bs).1 h
        refine ⟨i + 1, ?_, by simpa [part] using hlt⟩
        intro j hj
        cases j with
        | zero => simp [part]
        | succ n => simpa [part] using hei n (by omega)
      · simp only [cmpParts, cmpZero] at h
        rw [if_pos (by omega : (0 : Int) ≠ b)] at h
        exact ⟨0, by omega, by simp [part]; omega⟩
    · rintro ⟨i, hei, hlt⟩
      by_cases hb : b = 0
      · subst hb
        cases i with
        | zero => simp [part] at hlt
        | succ n =>
          have hlex : lexLt (part ([] : List Int)) (part bs) := by
            refine ⟨n, fun j hj => by simpa [part] using hei (j + 1) (by omega),
              by simpa [part] using hlt⟩
          simpa [cmpParts, cmpZero] using (cmpParts_lt_iff [] bs).2 hlex
      · have h0 : (0 : Int) < b := by
          rcases Nat.eq_zero_or_pos i with hi | hi
          · subst hi; simpa [part] using hlt
          · have := hei 0 hi; simp [part] at this; omega
        simp only [cmpParts, cmpZero]
        rw [if_pos (by omega : (0 : Int) ≠ b)]
        omega
  | a :: as, [] => by
    constructor
    · intro h
      by_cases ha : a = 0
      · subst ha
        simp only [cmpParts, cmpZero, ne_eq, not_true_eq_false, if_false] at h
        obtain ⟨i, hei, hlt⟩ := (cmpParts_lt_iff as []).1 h
        refine ⟨i + 1, ?_, by simpa [part] using hlt⟩
        intro j hj
        cases j with
        | zero => simp [part]
        | succ n => simpa [part] using hei n (by omega)
      · simp only [cmpParts, cmpZero] at h
        rw [if_pos (by omega : a ≠ 0)] at h
        exact ⟨0, by omega, by simp [part]; omega⟩
    · rintro ⟨i, hei, hlt⟩
      by_cases ha : a = 0
      · subst ha
        cases i with
        | zero => simp [part] at hlt
        | succ n =>
          have hlex : lexLt (part as) (part ([] : List Int)) := by
            refine ⟨n, fun j hj => by simpa [part] using hei (j + 1) (by omega),
              by simpa [part] using hlt⟩
          simpa [cmpParts, cmpZero] using (cmpParts_lt_iff as []).2 hlex
      · have h0 : a < 0 := by
          rcases Nat.eq_zero_or_pos i with hi | hi
          · subst hi; simpa [part] using hlt
          · have := hei 0 hi; simp [part] at this; omega
        simp only [cmpParts, cmpZero]
        rw [if_pos (by omega : a ≠ 0)]
        omega
  | a :: as, b :: bs => by
    constructor
    · intro h
      by_cases hab : a = b
      · subst hab
        simp only [cmpParts, cmpZero, ne_eq, not_true_eq_false, if_false] at h
        obtain ⟨i, hei, hlt⟩ := (cmpParts_lt_iff as bs).1 h
        refine ⟨i + 1, ?_, by simpa [part] using hlt⟩
        intro j hj
        cases j with
        | zero => simp [part]
        | succ n => simpa [part] using hei n (by omega)
      · simp only [cmpParts, cmpZero] at h
        rw [if_pos (by omega : a ≠ b)] at h
        exact ⟨0, by omega, by simp [part]; omega⟩
    · rintro ⟨i, hei, hlt⟩
      by_cases hab : a = b
      · subst hab
        cases i with
        | zero => simp [part] at hlt
        | succ n =>
          have hlex : lexLt (part as) (part bs) := by
            refine ⟨n, fun j hj => by simpa [part] using hei (j + 1) (by omega),
              by simpa [part] using hlt⟩
          simpa [cmpParts, cmpZero] using (cmpParts_lt_iff as bs).2 hlex
      · have h0 : a < b := by
          rcases Nat.eq_zero_or_pos i with hi | hi
          · subst hi; simpa [part] using hlt
          · have := hei 0 hi; simp [part] at this; omega
        simp only [cmpParts, cmpZero]
        rw [if_pos (by omega : a ≠ b)]
        omega

theorem lexLt_trans {f g h : Nat → Int} (h1 : lexLt f g) (h2 : lexLt g h) :
    lexLt f h := by
  obtain ⟨i, hei, hlti⟩ := h1
  obtain ⟨k, hek, hltk⟩ := h2
  rcases Nat.lt_trichotomy i k with hik | hik | hik
  · exact ⟨i, fun j hj => (hei j hj).trans (hek j (by omega)),
      by rw [← hek i hik]; exact hlti⟩
  · subst hik; exact ⟨i, fun j hj => (hei j hj).trans (hek j hj), hlti.trans hltk⟩
  · exact ⟨k, fun j hj => (hei j (by omega)).trans (hek j hj),
      by rw [hei k hik]; exact hltk⟩

theorem cmpParts_trans {as bs cs : List Int}
    (h1 : cmpParts as bs ≤ 0) (h2 : cmpParts bs cs ≤ 0) : cmpParts as cs ≤ 0 := by
  rcases lt_or_eq_of_le h1 with hlt1 | heq1
  · rcases lt_or_eq_of_le h2 with hlt2 | heq2
    · exact le_of_lt ((cmpParts_lt_iff as cs).2
        (lexLt_trans ((cmpParts_lt_iff as bs).1 hlt1) ((cmpParts_lt_iff bs cs).1 hlt2)))
    · have he := (cmpParts_eq_zero_iff bs cs).1 heq2
      obtain ⟨i, hei, hlti⟩ := (cmpParts_lt_iff as bs).1 hlt1
      exact le_of_lt ((cmpParts_lt_iff as cs).2
        ⟨i, fun j hj => (hei j hj).trans (he j), by rw [← he i]; exact hlti⟩)
  · have he := (cmpParts_eq_zero_iff as bs).1 heq1
    rcases lt_or_eq_of_le h2 with hlt2 | heq2
    · obtain ⟨i, hei, hlti⟩ := (cmpParts_lt_iff bs cs).1 hlt2
      exact le_of_lt ((cmpParts_lt_iff as cs).2
        ⟨i, fun j hj => (he j).trans (hei j hj), by rw [he i]; exact hlti⟩)
    · have he2 := (cmpParts_eq_zero_iff bs cs).1 heq2
      exact le_of_eq ((cmpParts_eq_zero_iff as cs).2 fun i => (he i).trans (he2 i))

instance : IsTrans String vle :=
  ⟨fun _ _ _ h1 h2 => cmpParts_trans h1 h2⟩

instance : IsTotal String vle := by
  refine ⟨fun a b => ?_⟩
  unfold vle compareVersions
  have := cmpParts_neg (versionParts a) (versionParts b)
  omega

/-- JS `Set` insertion-order deduplication, with the elements already seen
carried as an accumulator: keep the first occurrence of each element, drop
later repeats. -/
def dedupSeen (seen : List String) : List String → List String
  | [] => []
  | x :: xs => if x ∈ seen then dedupSeen seen xs else x :: dedupSeen (x :: seen) xs

/-- `[...new Set(l)]` in JS: the distinct elements of `l` in first-occurrence
order. -/
def dedupFirst (l : List String) : List String :=
  dedupSeen [] l

theorem mem_dedupSeen (a : String) :
    ∀ (l seen : List String), a ∈ dedupSeen seen l ↔ a ∈ l ∧ a ∉ seen
  | [], seen => by simp [dedupSeen]
  | x :: xs, seen => by
    by_cases hx : x ∈ seen
    · rw [dedupSeen, if_pos hx, mem_dedupSeen a xs seen]
      constructor
      · rintro ⟨h1, h2⟩; exact ⟨List.mem_cons_of_mem x h1, h2⟩
      · rintro ⟨h1, h2⟩
        rcases List.mem_cons.1 h1 with rfl | h1
        · exact absurd hx h2
        · exact ⟨h1, h2⟩
    · rw [dedupSeen, if_neg hx]
      by_cases hax : a = x
      · subst hax; simp [hx]
      · simp only [List.mem_cons, hax, false_or]
        rw [mem_dedupSeen a xs (x :: seen)]
        simp [hax]

theorem mem_dedupFirst (l : List String) (a : String) : a ∈ dedupFirst l ↔ a ∈ l := by
  rw [dedupFirst, mem_dedupSeen]
  simp

theorem nodup_dedupSeen : ∀ (l seen : List String), (dedupSeen seen l).Nodup
  | [], _ => by simp [dedupSeen]
  | x :: xs, seen => by
    by_cases hx : x ∈ seen
    · rw [dedupSeen, if_pos hx]; exact nodup_dedupSeen xs seen
    · rw [dedupSeen, if_neg hx]
      refine List.nodup_cons.2 ⟨fun hmem => ?_, nodup_dedupSeen xs (x :: seen)⟩
      exact ((mem_dedupSeen x xs (x :: seen)).1 hmem).2 (List.mem_cons_self x seen)

theorem nodup_dedupFirst (l : List String) : (dedupFirst l).Nodup :=
  nodup_dedupSeen l []

/-- `fetchAvailableCudaVersions` from `cuda.ts`, with the three upstream
fetches made explicit parameters: `none` models a rejected fetch promise
(`Promise.allSettled` turns it into an empty contribution), `some vs` a
successful one.  The static legacy list (`OLD_CUDA_VERSIONS`) and the
minimum supported version (`START_SUPPORTED_CUDA_VERSION`) live in the
repository's `const.ts` and are passed in as parameters here. -/
def fetchAvailableCudaVersions (redistrib archive opensource : Option (List String))
    (oldVersions : List String) (startSupported : String) : List String :=
  let allVersions := dedupFirst
    (redistrib.getD [] ++ archive.getD [] ++ opensource.getD [] ++ oldVersions)
  let versions := sortVersions allVersions
  versions.filter (fun v => decide (0 ≤ compareVersions v startSupported))

/-- `findCudaVersion` from `cuda.ts` with the fetched catalog made an explicit
parameter; `none` models the `undefined` "not found" result. -/
def findCudaVersion (versions : List String) (inputVersion : String) : Option String :=
  if inputVersion = "latest" then
    versions.getLast?
  else if inputVersion ∈ versions then
    some inputVersion
  else
    let pref := inputVersion ++ "."
    let matchingVersions := versions.filter (fun v => pref.data.isPrefixOf v.data)
    if 0 < matchingVersions.length then matchingVersions.getLast? else none

/-- JS `parts.join('.')`. -/
def joinDots : List (List Char) → List Char
  | [] => []
  | [p] => p
  | p :: ps => p ++ '.' :: joinDots ps

/-- `normalizeCudaVersion` from `cuda.ts`: major ≤ 10 keeps only the first two
components, major ≥ 11 (or an unparseable major, JS `NaN`) keeps the version
unchanged. -/
def normalizeCudaVersion (version : String) : String :=
  let parts := splitDots version.data
  match parseIntOpt (parts.headD []) with
  | some major => if major ≤ 10 then String.mk (joinDots (parts.take 2)) else version
  | none => version

/-- Supported operating systems (`os_arch.ts`). -/
inductive OS
  | linux
  | windows
  deriving DecidableEq

/-- Supported architectures (`os_arch.ts`). -/
inductive Arch
  | x86_64
  | arm64_sbsa
  deriving DecidableEq

/-- Linux distribution information (`os_arch.ts`); `idLink` holds the
`ID_LIKE` value from `/etc/os-release`. -/
structure LinuxDistribution where
  id : String
  version : String
  name : String
  idLink : String
  deriving DecidableEq

/-- Substring test on character lists, modelling JS `String.prototype.includes`. -/
def containsList (pat : List Char) : List Char → Bool
  | [] => pat.isEmpty
  | c :: cs => pat.isPrefixOf (c :: cs) || containsList pat cs

/-- `isDebianBased` from `os_arch.ts`. -/
def isDebianBased (osInfo : LinuxDistribution) : Bool :=
  osInfo.id = "debian" || containsList "debian".data osInfo.idLink.data

/-- `isFedoraBased` from `os_arch.ts`. -/
def isFedoraBased (osInfo : LinuxDistribution) : Bool :=
  osInfo.id = "fedora" || containsList "fedora".data osInfo.idLink.data

/-- One entry of the static `CUDA_LINKS` override table (`const.ts`, modelled
here as data since only its shape matters): per-OS/arch installer URLs;
`none` is an absent field. -/
structure CudaLink where
  linuxX86Url : Option String := none
  linuxArm64Url : Option String := none
  windowsLocalInstallerUrl : Option String := none
  windowsNetworkInstallerUrl : Option String := none
  deriving DecidableEq

/-- Failures of `getCudaLocalInstallerUrl`; `linkTableMiss` models the JS
`TypeError` raised by reading a property of an `undefined` table entry. -/
inductive CudaError
  | unsupportedVersion
  | unsupportedCombination
  | linkTableMiss
  | fetchFailed
  | noMatchingInstaller
  deriving DecidableEq

/-- `getDownloadUrl` from `cuda.ts`. -/
def getDownloadUrl (version dir filename : String) : String :=
  "https://developer.download.nvidia.com/compute/cuda/" ++ version ++ "/" ++ dir
    ++ "/" ++ filename

/-- JS truthiness of an optional string: `undefined` and `""` are falsy. -/
def truthy : Option String → Bool
  | none => false
  | some s => !s.data.isEmpty

/-- `parseInt(version.split('.')[0])`. -/
def majorVersionOf (version : String) : Option Nat :=
  parseIntOpt ((splitDots version.data).headD [])

/-- The JS comparison `parseInt(version.split('.')[0]) <= 10`; false when the
major component is unparseable (`NaN`). -/
def majorLe10 (version : String) : Bool :=
  match majorVersionOf version with
  | some m => decide (m ≤ 10)
  | none => false

/-- Tail of the local-installer filename regex,
`\d+\.\d+(\.\d+)?<sfx>`, matched at the start of `cs` with the greedy
backtracking the JS engine performs (each `\d+` is forced maximal by the
following literal). -/
def runTail (sfx cs : List Char) : Bool :=
  let d1 := cs.takeWhile Char.isDigit
  if d1.isEmpty then false
  else
    match cs.drop d1.length with
    | '.' :: r1 =>
      let d2 := r1.takeWhile Char.isDigit
      if d2.isEmpty then false
      else
        let r2 := r1.drop d2.length
        match r2 with
        | '.' :: r3 =>
          let d3 := r3.takeWhile Char.isDigit
          if !d3.isEmpty && sfx.isPrefixOf (r3.drop d3.length) then true
          else sfx.isPrefixOf r2
        | _ => sfx.isPrefixOf r2
    | _ => false

/-- Unanchored search for `cuda_<version>_\d+\.\d+(\.\d+)?<sfx>` (the
checksum-manifest filename pattern built in `getCudaLocalInstallerUrl`);
only existence matters because the code stops at the first matching line. -/
def runfileMatches (ver sfx : List Char) : List Char → Bool
  | [] => false
  | c :: cs =>
    (("cuda_".data ++ ver ++ ['_']).isPrefixOf (c :: cs)
        && runTail sfx ((c :: cs).drop ("cuda_".data ++ ver ++ ['_']).length))
      || runfileMatches ver sfx cs

/-- JS `String.prototype.endsWith` on character lists. -/
def endsWithList (sfx cs : List Char) : Bool :=
  decide (sfx.length ≤ cs.length) && sfx.isPrefixOf (cs.drop (cs.length - sfx.length))

/-- The Windows filename scan of `getCudaLocalInstallerUrl`: stop at the first
`_windows.exe`; otherwise remember the last `_win10.exe` seen so far and fall
back to it (`windowsFilename || win10Filename`). -/
def findWindowsInstaller : List String → Option String → Option String
  | [], win10 => win10
  | f :: fs, win10 =>
    if endsWithList "_windows.exe".data f.data then some f
    else if endsWithList "_win10.exe".data f.data then findWindowsInstaller fs (some f)
    else findWindowsInstaller fs win10
termination_by structural l _ => l

/-- The override-table consultation block of `getCudaLocalInstallerUrl`:
the three `if` statements guarded by `version in CUDA_LINKS`, each returning
only when the OS/arch matches and the field is truthy. -/
def tableLookup (links : String → Option CudaLink) (version : String)
    (os : OS) (arch : Arch) : Option String :=
  match links version with
  | none => none
  | some link =>
    if os = OS.linux ∧ arch = Arch.x86_64 ∧ truthy link.linuxX86Url then
      link.linuxX86Url
    else if os = OS.linux ∧ arch = Arch.arm64_sbsa ∧ truthy link.linuxArm64Url then
      link.linuxArm64Url
    else if os = OS.windows ∧ truthy link.windowsLocalInstallerUrl then
      link.windowsLocalInstallerUrl
    else none

/-- `getCudaLocalInstallerUrl` from `cuda.ts`.  `links` and `startSupported`
stand for the `CUDA_LINKS` table and `START_SUPPORTED_CUDA_VERSION` constant
from `const.ts`; `md5files` is the outcome of `fetchMd5sum` (the filenames of
the checksum manifest in line order, or a fetch failure).  `Except.ok none`
models the JS path that resolves with `undefined` (a missing field of a
present table entry). -/
def getCudaLocalInstallerUrl (links : String → Option CudaLink)
    (startSupported : String) (md5files : Except Unit (List String))
    (version : String) (os : OS) (arch : Arch) : Except CudaError (Option String) :=
  if compareVersions version startSupported < 0 then
    .error .unsupportedVersion
  else if majorLe10 version ∧ os = OS.linux ∧ arch = Arch.arm64_sbsa then
    .error .unsupportedCombination
  else
    match tableLookup links version os arch with
    | some url => .ok (some url)
    | none =>
      if majorLe10 version ∧ os = OS.linux ∧ arch = Arch.x86_64 then
        match links version with
        | some link => .ok link.linuxX86Url
        | none => .error .linkTableMiss
      else if majorLe10 version ∧ os = OS.windows then
        match links version with
        | some link => .ok link.windowsLocalInstallerUrl
        | none => .error .linkTableMiss
      else
        match md5files with
        | .error _ => .error .fetchFailed
        | .ok files =>
          let targetFilename : Option String :=
            match os with
            | OS.linux =>
              let sfx := if arch = Arch.x86_64 then "_linux.run" else "_linux_sbsa.run"
              files.find? (fun f => runfileMatches version.data sfx.data f.data)
            | OS.windows => findWindowsInstaller files none
          match targetFilename with
          | some f => .ok (some (getDownloadUrl version "local_installers" f))
          | none => .error .noMatchingInstaller

/-- Characters matched by the regex class `[\w.-]`. -/
def isClassChar (c : Char) : Bool :=
  c.isAlphanum || c = '_' || c = '.' || c = '-'

/-- Case-insensitive character equality (the `i` regex flag). -/
def ciEq (a b : Char) : Bool :=
  a.toLower = b.toLower

/-- Case-insensitive prefix test. -/
def ciPrefixAt : List Char → List Char → Bool
  | [], _ => true
  | _ :: _, [] => false
  | l :: ls, c :: cs => ciEq l c && ciPrefixAt ls cs

/-- Greedy backtracking of `[\w.-]+<sfx>` inside the maximal class-character
run `run`: the largest `m ≥ 1` such that `sfx` matches at offset `m`. -/
def lastSuffixPosAux (sfx run : List Char) : Nat → Option Nat
  | 0 => none
  | m + 1 =>
    if ciPrefixAt sfx (run.drop (m + 1)) then some (m + 1)
    else lastSuffixPosAux sfx run m

/-- Attempt the pattern `<lit>[\w.-]+<sfx>` at the start of `cs` (both
literals case-insensitively); returns the length of the leftmost-greedy
match, as the JS engine computes it. -/
def tryClassPat (lit sfx cs : List Char) : Option Nat :=
  if ciPrefixAt lit cs then
    let run := (cs.drop lit.length).takeWhile isClassChar
    match lastSuffixPosAux sfx run run.length with
    | some m => some (lit.length + m + sfx.length)
    | none => none
  else none

/-- Leftmost match of `<lit>[\w.-]+<sfx>` in a string, scanning start
positions left to right; returns the absolute end index of the match
(`pos` is the absolute index of the head of the list). -/
def classPatMatchEnd (lit sfx : List Char) : List Char → Nat → Option Nat
  | [], _ => none
  | c :: cs, pos =>
    match tryClassPat lit sfx (c :: cs) with
    | some len => some (pos + len)
    | none => classPatMatchEnd lit sfx cs (pos + 1)

/-- `RegExp.prototype.test` for a regex without the `g` flag (stateless). -/
def regexTest (lit sfx : List Char) (s : String) : Bool :=
  (classPatMatchEnd lit sfx s.data 0).isSome

/-- `repoFiles.filter((file) => pattern.test(file))` for a `g`-flagged regex:
`test` starts searching at the persistent `lastIndex`, sets it past the match
on success and resets it to `0` on failure.  This reproduces the stateful
behaviour of the `cuda-keyring` filter in `findRepoFilename`. -/
def statefulFilter (lit sfx : List Char) (lastIndex : Nat) :
    List String → List String
  | [] => []
  | f :: fs =>
    match classPatMatchEnd lit sfx (f.data.drop lastIndex) lastIndex with
    | some e => f :: statefulFilter lit sfx e fs
    | none => statefulFilter lit sfx 0 fs

/-- Lexicographic strict comparison of character lists by code point, the
order JS `<` uses on the ASCII filenames involved. -/
def charListLt : List Char → List Char → Bool
  | [], [] => false
  | [], _ :: _ => true
  | _ :: _, [] => false
  | a :: as, b :: bs => if a < b then true else if b < a then false else charListLt as bs
termination_by structural l _ => l

/-- The non-strict string order `a ≤ b` used by the default sort. -/
def stringLe (a b : String) : Prop :=
  charListLt b.data a.data = false

instance : DecidableRel stringLe := fun a b =>
  inferInstanceAs (Decidable (charListLt b.data a.data = false))

/-- JS default `Array.prototype.sort()` on strings: stable sort by the
code-unit lexicographic order. -/
def sortStrings (files : List String) : List String :=
  List.insertionSort stringLe files

/-- Failures of the Linux repository resolution. -/
inductive RepoError
  | repositoryNotFound
  | repositoryFileNotFound
  | packageNotFound
  deriving DecidableEq

/-- `findRepoFilename` from `cuda.ts`.  The `cuda-keyring` pattern carries the
`gi` flags in the source, so its `.test` inside `.filter` is stateful
(`statefulFilter`); the `cuda-*.pin` and `cuda-*.repo` patterns carry only
`i` and are stateless. -/
def findRepoFilename (repoFiles : List String) (osInfo : LinuxDistribution) :
    Except RepoError String :=
  if isDebianBased osInfo then
    let cudaKeyringMatches :=
      sortStrings (statefulFilter "cuda-keyring_".data ".deb".data 0 repoFiles)
    if 0 < cudaKeyringMatches.length then .ok (cudaKeyringMatches.getLastD "")
    else
      let cudaPinMatches :=
        sortStrings (repoFiles.filter (fun f => regexTest "cuda-".data ".pin".data f))
      if 0 < cudaPinMatches.length then .ok (cudaPinMatches.getLastD "")
      else .error .repositoryFileNotFound
  else if isFedoraBased osInfo then
    let cudaRepoMatches :=
      sortStrings (repoFiles.filter (fun f => regexTest "cuda-".data ".repo".data f))
    if 0 < cudaRepoMatches.length then .ok (cudaRepoMatches.getLastD "")
    else .error .repositoryFileNotFound
  else .error .repositoryFileNotFound

/-- The sorted candidate list computed by `findAvailablePackages`: files
prefixed by the family-specific package patterns for the requested
version. -/
def availablePackagesFor (repoFiles : List String) (cudaVersion : String)
    (osInfo : LinuxDistribution) : List String :=
  if isDebianBased osInfo then
    sortStrings (repoFiles.filter (fun f =>
      ("cuda-toolkit_" ++ cudaVersion).data.isPrefixOf f.data
        || ("cuda_" ++ cudaVersion).data.isPrefixOf f.data))
  else if isFedoraBased osInfo then
    sortStrings (repoFiles.filter (fun f =>
      ("cuda-toolkit-" ++ cudaVersion).data.isPrefixOf f.data
        || ("cuda-" ++ cudaVersion).data.isPrefixOf f.data))
  else []

/-- `findAvailablePackages` from `cuda.ts`. -/
def findAvailablePackages (repoFiles : List String) (cudaVersion : String)
    (osInfo : LinuxDistribution) : Except RepoError (List String) :=
  let availablePackages := availablePackagesFor repoFiles cudaVersion osInfo
  if availablePackages.isEmpty then .error .packageNotFound
  else .ok availablePackages

/-- `buildTargetOsName` from `cuda.ts`: Ubuntu drops the dots of
`major.minor`, every other distribution keeps the major component only. -/
def buildTargetOsName (osInfo : LinuxDistribution) : String :=
  let id := String.mk (osInfo.id.data.map Char.toLower)
  let versionPart :=
    if id = "ubuntu" then String.mk (osInfo.version.data.filter (fun c => c ≠ '.'))
    else String.mk ((splitDots osInfo.version.data).headD [])
  id ++ versionPart

/-- `buildCudaRepoUrl` from `cuda.ts`. -/
def buildCudaRepoUrl (targetOsName : String) (arch : Arch) : String :=
  let base := "https://developer.download.nvidia.com/compute/cuda/repos/" ++ targetOsName
  match arch with
  | Arch.x86_64 => base ++ "/x86_64/"
  | Arch.arm64_sbsa => base ++ "/sbsa/"

/-- JS regex line terminators, which `.` does not match. -/
def isLineTerm (c : Char) : Bool :=
  c = '\n' || c = '\r' || c = '\u2028' || c = '\u2029'

/-- No line terminator in the list (what a `.*` / `.+` span may cover). -/
def noLineTerm (cs : List Char) : Bool :=
  cs.all (fun c => !isLineTerm c)

/-- `.*<sfx>$`: `cs` ends with the literal `sfx` and everything before it is
free of line terminators. -/
def dotStarThen (sfx cs : List Char) : Bool :=
  decide (sfx.length ≤ cs.length) && sfx.isPrefixOf (cs.drop (cs.length - sfx.length))
    && noLineTerm (cs.take (cs.length - sfx.length))

/-- The Debian package-name regex `^([^_]+)_([^_]+)_.*\.deb$` : both `[^_]+`
groups are forced up to the first two underscores, the rest must end in
`.deb`.  Returns the two captures. -/
def debMatch (cs : List Char) : Option (List Char × List Char) :=
  let p0 := cs.takeWhile (fun c => c ≠ '_')
  if p0.isEmpty then none
  else
    match cs.drop p0.length with
    | '_' :: r1 =>
      let p1 := r1.takeWhile (fun c => c ≠ '_')
      if p1.isEmpty then none
      else
        match r1.drop p1.length with
        | '_' :: r2 => if dotStarThen ".deb".data r2 then some (p0, p1) else none
        | _ => none
    | _ => none

/-- Tail `(\d+\.\d+\.\d+)-(\d+)\..+\.rpm$` of the Fedora package-name regex,
anchored at the start of `cs`; each `\d+` is forced maximal by the following
literal.  Returns the version and release captures. -/
def rpmTail (cs : List Char) : Option (List Char × List Char) :=
  let d1 := cs.takeWhile Char.isDigit
  if d1.isEmpty then none
  else
    match cs.drop d1.length with
    | '.' :: r1 =>
      let d2 := r1.takeWhile Char.isDigit
      if d2.isEmpty then none
      else
        match r1.drop d2.length with
        | '.' :: r2 =>
          let d3 := r2.takeWhile Char.isDigit
          if d3.isEmpty then none
          else
            match r2.drop d3.length with
            | '-' :: r3 =>
              let rel := r3.takeWhile Char.isDigit
              if rel.isEmpty then none
              else
                match r3.drop rel.length with
                | '.' :: r4 =>
                  if decide (5 ≤ r4.length)
                      && ".rpm".data.isPrefixOf (r4.drop (r4.length - 4))
                      && noLineTerm (r4.take (r4.length - 4)) then
                    some (d1 ++ '.' :: d2 ++ '.' :: d3, rel)
                  else none
                | _ => none
            | _ => none
        | _ => none
    | _ => none

/-- Backtracking of the greedy leading `(.+)` of the Fedora regex: try the
separating dash at the largest position first.  `p + 1` is the candidate
index of the dash between `<pkg>` and `<version>`. -/
def rpmMatchAux (cs : List Char) : Nat → Option (List Char × List Char × List Char)
  | 0 => none
  | p + 1 =>
    match cs.drop (p + 1) with
    | '-' :: rest =>
      match rpmTail rest with
      | some (v, r) =>
        let pre := cs.take (p + 1)
        if noLineTerm pre then some (pre, v, r) else rpmMatchAux cs p
      | none => rpmMatchAux cs p
    | _ => rpmMatchAux cs p

/-- The Fedora package-name regex `^(.+)-(\d+\.\d+\.\d+)-(\d+)\..+\.rpm$`,
returning the three captures of the (greedy) match. -/
def rpmMatch (cs : List Char) : Option (List Char × List Char × List Char) :=
  rpmMatchAux cs cs.length

/-- `extractPackageName` from `cuda.ts`: Debian `<pkg>_<version>_<arch>.deb`
becomes `<pkg>=<version>`, Fedora `<pkg>-<version>-<release>.<arch>.rpm`
becomes `<pkg>-<version>-<release>`; anything else passes through. -/
def extractPackageName (packageFile : String) (osInfo : LinuxDistribution) : String :=
  if isDebianBased osInfo then
    match debMatch packageFile.data with
    | some (p, v) => String.mk p ++ "=" ++ String.mk v
    | none => packageFile
  else if isFedoraBased osInfo then
    match rpmMatch packageFile.data with
    | some (p, v, r) => String.mk p ++ "-" ++ String.mk v ++ "-" ++ String.mk r
    | none => packageFile
  else packageFile

/-- Result of `findCudaRepoAndPackageLinux`. -/
structure RepoPackage where
  repoUrl : String
  packageName : String
  deriving DecidableEq

/-- `findCudaRepoAndPackageLinux` from `cuda.ts`, with the two fetched
listings (`fetchCudaRepoOS`, `fetchCudaRepoFiles`) made explicit
parameters. -/
def findCudaRepoAndPackageLinux (osList repoFiles : List String)
    (cudaVersion : String) (arch : Arch) (osInfo : LinuxDistribution) :
    Except RepoError RepoPackage :=
  let targetOsName := buildTargetOsName osInfo
  if targetOsName ∈ osList then
    match findRepoFilename repoFiles osInfo with
    | .error e => .error e
    | .ok filename =>
      match findAvailablePackages repoFiles cudaVersion osInfo with
      | .error e => .error e
      | .ok availablePackages =>
        let selectedPackage :=
          if isDebianBased osInfo then availablePackages.headD ""
          else availablePackages.getLastD ""
        .ok { repoUrl := buildCudaRepoUrl targetOsName arch ++ filename,
              packageName := extractPackageName selectedPackage osInfo }
  else .error .repositoryNotFound

instance {ε α : Type} [DecidableEq ε] [DecidableEq α] : DecidableEq (Except ε α) := fun x y =>
  match x, y with
  | .ok a, .ok b =>
    if h : a = b then isTrue (by rw [h]) else isFalse (fun he => h (Except.ok.inj he))
  | .ok _, .error _ => isFalse (fun he => Except.noConfusion he)
  | .error _, .ok _ => isFalse (fun he => Except.noConfusion he)
  | .error e1, .error e2 =>
    if h : e1 = e2 then isTrue (by rw [h]) else isFalse (fun he => h (Except.error.inj he))

/-- An example Debian-family distribution, used in concrete statements. -/
def ubuntuJammy : LinuxDistribution :=
  ⟨"ubuntu", "22.04", "Ubuntu", "debian"⟩

/-- An example Fedora-family distribution, used in concrete statements. -/
def fedora40 : LinuxDistribution :=
  ⟨"fedora", "40", "Fedora", ""⟩

/-- C4: `compareVersions` splits on dots and compares integer components left
to right, a missing component counting as `0`, the first unequal component
deciding the sign.  It is reflexive-equal, sign-antisymmetric, transitive and
total — a total preorder consistent with component-wise integer comparison:
its equivalence is exactly padded component-wise equality and its strict part
exactly component-wise lexicographic order — and
`compareVersions "10.2" "10.2.0" = 0`. -/
theorem compareVersions_total_order (a b c : String) :
    compareVersions a a = 0
    ∧ compareVersions b a = -compareVersions a b
    ∧ (compareVersions a b = 0 ↔ ∀ i, part (versionParts a) i = part (versionParts b) i)
    ∧ (compareVersions a b < 0 ↔ lexLt (part (versionParts a)) (part (versionParts b)))
    ∧ (compareVersions a b ≤ 0 → compareVersions b c ≤ 0 → compareVersions a c ≤ 0)
    ∧ (compareVersions a b ≤ 0 ∨ compareVersions b a ≤ 0)
    ∧ compareVersions "10.2" "10.2.0" = 0 := by
  refine ⟨cmpParts_self _, cmpParts_neg _ _, cmpParts_eq_zero_iff _ _, cmpParts_lt_iff _ _,
    fun h1 h2 => cmpParts_trans h1 h2, ?_, by decide⟩
  have h := cmpParts_neg (versionParts a) (versionParts b)
  unfold compareVersions
  omega

/-- Closed instance of `compareVersions_total_order`: transitivity applied at
concrete versions. -/
theorem compareVersions_total_order_witness :
    compareVersions "9.2" "10.0" ≤ 0 ∧ compareVersions "10.0" "10.2.0" ≤ 0
      ∧ compareVersions "9.2" "10.2.0" ≤ 0 :=
  ⟨by decide, by decide,
    (compareVersions_total_order "9.2" "10.0" "10.2.0").2.2.2.2.1 (by decide) (by decide)⟩

/-- C1: `findCudaVersion` follows the resolution rules in order: `"latest"`
yields the last catalog element (`none` on an empty catalog), an exact member
is returned as-is, otherwise the last catalog entry extending
`input ++ "."` is returned when one exists, and otherwise the result is the
not-found signal `none`, not an error. -/
theorem findCudaVersion_resolution (versions : List String) (inputVersion : String) :
    findCudaVersion versions "latest" = versions.getLast?
    ∧ (inputVersion ≠ "latest" → inputVersion ∈ versions →
        findCudaVersion versions inputVersion = some inputVersion)
    ∧ (inputVersion ≠ "latest" → inputVersion ∉ versions →
        versions.filter (fun v => (inputVersion ++ ".").data.isPrefixOf v.data) ≠ [] →
        findCudaVersion versions inputVersion =
          (versions.filter (fun v => (inputVersion ++ ".").data.isPrefixOf v.data)).getLast?)
    ∧ (inputVersion ≠ "latest" → inputVersion ∉ versions →
        versions.filter (fun v => (inputVersion ++ ".").data.isPrefixOf v.data) = [] →
        findCudaVersion versions inputVersion = none) := by
  refine ⟨by simp [findCudaVersion], fun h1 h2 => by simp [findCudaVersion, h1, h2],
    fun h1 h2 h3 => ?_, fun h1 h2 h3 => ?_⟩
  · have hlen : 0 <
        (versions.filter (fun v => (inputVersion ++ ".").data.isPrefixOf v.data)).length :=
      List.length_pos.2 h3
    simp only [findCudaVersion, if_neg h1, if_neg h2, if_pos hlen]
  · have hlen : ¬ 0 <
        (versions.filter (fun v => (inputVersion ++ ".").data.isPrefixOf v.data)).length := by
      rw [h3]
      simp
    simp only [findCudaVersion, if_neg h1, if_neg h2, if_neg hlen]

/-- Closed instance of `findCudaVersion_resolution`: the prefix rule applied
to a concrete catalog. -/
theorem findCudaVersion_resolution_witness :
    findCudaVersion ["11.0", "11.0.1", "11.2", "12.4.1"] "11" = some "11.2" := by
  have h := (findCudaVersion_resolution ["11.0", "11.0.1", "11.2", "12.4.1"] "11").2.2.1
    (by decide) (by decide) (by decide)
  rw [h]
  decide

/-- C2 counterexample: on the catalog `["11.0","11.0.1","11.2","12.4.1"]` the
exact-match rule fires before the prefix rule, so `resolve "11.0"` returns
`"11.0"`, not `"11.0.1"` as the scenario claims. -/
theorem findCudaVersion_scenario_cex :
    findCudaVersion ["11.0", "11.0.1", "11.2", "12.4.1"] "11.0" = some "11.0"
    ∧ findCudaVersion ["11.0", "11.0.1", "11.2", "12.4.1"] "11.0" ≠ some "11.0.1" := by
  exact ⟨by decide, by decide⟩

/-- C2 (amended): on the catalog `["11.0","11.0.1","11.2","12.4.1"]`,
`resolve "11.0" = "11.0"` (exact membership takes precedence over the prefix
rule), `resolve "11" = "11.2"`, `resolve "12.4.1" = "12.4.1"`, and
`resolve "13"` is not found. -/
theorem findCudaVersion_scenario :
    findCudaVersion ["11.0", "11.0.1", "11.2", "12.4.1"] "11.0" = some "11.0"
    ∧ findCudaVersion ["11.0", "11.0.1", "11.2", "12.4.1"] "11" = some "11.2"
    ∧ findCudaVersion ["11.0", "11.0.1", "11.2", "12.4.1"] "12.4.1" = some "12.4.1"
    ∧ findCudaVersion ["11.0", "11.0.1", "11.2", "12.4.1"] "13" = none := by
  exact ⟨by decide, by decide, by decide, by decide⟩

/-- C10: apart from `"latest"`, a defined resolution result is either the
input itself or an entry extending `input ++ "."`; in particular the bare
specifier `"1"` does not resolve into `11.x`/`12.x` entries. -/
theorem findCudaVersion_result_shape (versions : List String) (inputVersion v : String)
    (hlatest : inputVersion ≠ "latest")
    (h : findCudaVersion versions inputVersion = some v) :
    (v = inputVersion ∨ (inputVersion ++ ".").data.isPrefixOf v.data = true)
    ∧ findCudaVersion ["11.0", "11.2", "12.4.1"] "1" = none := by
  refine ⟨?_, by decide⟩
  rw [findCudaVersion, if_neg hlatest] at h
  by_cases hmem : inputVersion ∈ versions
  · rw [if_pos hmem] at h
    exact Or.inl (Option.some.inj h).symm
  · rw [if_neg hmem] at h
    simp only at h
    split at h
    · have hv : v ∈ versions.filter
          (fun w => (inputVersion ++ ".").data.isPrefixOf w.data) := by
        obtain ⟨ys, hys⟩ := List.getLast?_eq_some_iff.1 h
        rw [hys]
        simp
      exact Or.inr ((List.mem_filter.1 hv).2)
    · exact absurd h (by simp)

/-- Closed instance of `findCudaVersion_result_shape` at a concrete catalog
and specifier. -/
theorem findCudaVersion_result_shape_witness :
    ("11.2" : String) = "11" ∨ ("11" ++ ".").data.isPrefixOf "11.2".data = true := by
  have h := findCudaVersion_result_shape ["11.0", "11.0.1", "11.2"] "11" "11.2"
    (by decide) (by decide)
  exact h.1

/-- C5: for a version whose major component parses to `major`,
`normalizeCudaVersion` keeps only the first two dot-components when
`major ≤ 10` and returns the version unchanged when `major ≥ 11`. -/
theorem normalizeCudaVersion_rule (v : String) (major : Nat)
    (hmajor : parseIntOpt ((splitDots v.data).headD []) = some major) :
    (major ≤ 10 →
      normalizeCudaVersion v = String.mk (joinDots ((splitDots v.data).take 2)))
    ∧ (11 ≤ major → normalizeCudaVersion v = v) := by
  constructor
  · intro h
    simp only [normalizeCudaVersion]
    rw [hmajor]
    simp [h]
  · intro h
    simp only [normalizeCudaVersion]
    rw [hmajor]
    exact if_neg (by omega)

/-- Closed instance of `normalizeCudaVersion_rule` on both sides of the major
cutoff. -/
theorem normalizeCudaVersion_rule_witness :
    normalizeCudaVersion "10.1.243" = "10.1" ∧ normalizeCudaVersion "11.0.3" = "11.0.3" := by
  constructor
  · have h := (normalizeCudaVersion_rule "10.1.243" 10 (by decide)).1 (by decide)
    rw [h]
    decide
  · exact (normalizeCudaVersion_rule "11.0.3" 11 (by decide)).2 (by decide)

/-- C3 (amended): for every combination of source successes/failures the
catalog is exactly the union of the successful sources with the static
legacy list restricted to versions at or above the floor, contains no
duplicate string entries, and is sorted non-decreasingly under
`compareVersions`; it is strictly ascending whenever no two of its entries
are `compareVersions`-equivalent. -/
theorem fetchAvailableCudaVersions_catalog (redistrib archive opensource : Option (List String))
    (oldVersions : List String) (startSupported : String) :
    (∀ v, v ∈ fetchAvailableCudaVersions redistrib archive opensource oldVersions startSupported
      ↔ ((v ∈ redistrib.getD [] ∨ v ∈ archive.getD [] ∨ v ∈ opensource.getD []
          ∨ v ∈ oldVersions) ∧ 0 ≤ compareVersions v startSupported))
    ∧ (fetchAvailableCudaVersions redistrib archive opensource oldVersions startSupported).Nodup
    ∧ List.Sorted vle
        (fetchAvailableCudaVersions redistrib archive opensource oldVersions startSupported)
    ∧ (List.Pairwise (fun x y => compareVersions x y ≠ 0)
          (fetchAvailableCudaVersions redistrib archive opensource oldVersions startSupported) →
        List.Pairwise (fun x y => compareVersions x y < 0)
          (fetchAvailableCudaVersions redistrib archive opensource oldVersions startSupported)) := by
  refine ⟨?_, ?_, ?_, ?_⟩
  · intro v
    unfold fetchAvailableCudaVersions sortVersions
    rw [List.mem_filter, List.mem_insertionSort, mem_dedupFirst]
    simp [List.mem_append, or_assoc]
  · unfold fetchAvailableCudaVersions sortVersions
    exact List.Nodup.sublist (List.filter_sublist _)
      ((List.perm_insertionSort vle _).nodup_iff.2 (nodup_dedupFirst _))
  · unfold fetchAvailableCudaVersions sortVersions
    exact List.Pairwise.sublist (List.filter_sublist _) (List.sorted_insertionSort vle _)
  · intro hne
    have hsorted : List.Sorted vle
        (fetchAvailableCudaVersions redistrib archive opensource oldVersions startSupported) := by
      unfold fetchAvailableCudaVersions sortVersions
      exact List.Pairwise.sublist (List.filter_sublist _) (List.sorted_insertionSort vle _)
    exact (hsorted.and hne).imp (fun h => by
      have h1 : compareVersions _ _ ≤ 0 := h.1
      have h2 := h.2
      omega)

/-- Closed instance of `fetchAvailableCudaVersions_catalog`: a concrete
catalog with pairwise inequivalent entries is strictly ascending. -/
theorem fetchAvailableCudaVersions_catalog_witness :
    List.Pairwise (fun x y => compareVersions x y < 0)
      (fetchAvailableCudaVersions (some ["9.0", "11.2"]) none none [] "8.0") :=
  (fetchAvailableCudaVersions_catalog (some ["9.0", "11.2"]) none none [] "8.0").2.2.2
    (by decide)

/-- C3 counterexample: a successful source may contribute both `"10.2"` and
`"10.2.0"`, two distinct strings that `compareVersions` considers equal, so
the resulting catalog is not strictly ascending under `compareVersions`. -/
theorem fetchAvailableCudaVersions_not_strict_cex :
    fetchAvailableCudaVersions (some ["10.2", "10.2.0"]) none none [] "8.0"
      = ["10.2", "10.2.0"]
    ∧ ¬ List.Pairwise (fun x y : String => compareVersions x y < 0)
        (fetchAvailableCudaVersions (some ["10.2", "10.2.0"]) none none [] "8.0")
    ∧ compareVersions "10.2" "10.2.0" = 0 :=
  ⟨by decide, by decide, by decide⟩

/-- Override table used in the closed instances below. -/
def sampleLinks : String → Option CudaLink := fun v =>
  if v = "12.4.1" then some { linuxX86Url := some "https://example/x86" } else none

/-- C6 (amended): `getCudaLocalInstallerUrl` rejects every version below the
floor with the unsupported-version error; a version at or above the floor
with major ≤ 10 on Linux/arm64-sbsa is rejected with the
unsupported-combination error; and for a version at or above the floor whose
(version, OS, arch) triple is not the rejected combination and has a URL in
the override table, that URL is returned immediately — independently of the
checksum-manifest fetch outcome, i.e. without any fetch. -/
theorem getCudaLocalInstallerUrl_guards (links : String → Option CudaLink)
    (startSupported : String) (md5a md5b : Except Unit (List String))
    (version url : String) (os : OS) (arch : Arch) :
    (compareVersions version startSupported < 0 →
      getCudaLocalInstallerUrl links startSupported md5a version os arch =
        .error .unsupportedVersion)
    ∧ (0 ≤ compareVersions version startSupported → majorLe10 version = true →
        getCudaLocalInstallerUrl links startSupported md5a version OS.linux Arch.arm64_sbsa =
          .error .unsupportedCombination)
    ∧ (0 ≤ compareVersions version startSupported →
        ¬(majorLe10 version = true ∧ os = OS.linux ∧ arch = Arch.arm64_sbsa) →
        tableLookup links version os arch = some url →
        getCudaLocalInstallerUrl links startSupported md5a version os arch = .ok (some url)
        ∧ getCudaLocalInstallerUrl links startSupported md5a version os arch =
            getCudaLocalInstallerUrl links startSupported md5b version os arch) := by
  refine ⟨fun h => ?_, fun h1 h2 => ?_, fun h1 h2 h3 => ?_⟩
  · simp only [getCudaLocalInstallerUrl, if_pos h]
  · simp [getCudaLocalInstallerUrl, if_neg (by omega : ¬ compareVersions version
      startSupported < 0), h2]
  · constructor
    · simp only [getCudaLocalInstallerUrl, if_neg (by omega : ¬ compareVersions version
        startSupported < 0), if_neg h2, h3]
    · simp only [getCudaLocalInstallerUrl, if_neg (by omega : ¬ compareVersions version
        startSupported < 0), if_neg h2, h3]

/-- Closed instance of `getCudaLocalInstallerUrl_guards`: a table hit is
returned unchanged whether the manifest fetch would succeed or fail. -/
theorem getCudaLocalInstallerUrl_guards_witness :
    getCudaLocalInstallerUrl sampleLinks "8.0" (.ok []) "12.4.1" OS.linux Arch.x86_64 =
      .ok (some "https://example/x86")
    ∧ getCudaLocalInstallerUrl sampleLinks "8.0" (.ok []) "12.4.1" OS.linux Arch.x86_64 =
        getCudaLocalInstallerUrl sampleLinks "8.0" (.error ()) "12.4.1" OS.linux Arch.x86_64 :=
  (getCudaLocalInstallerUrl_guards sampleLinks "8.0" (.ok []) (.error ()) "12.4.1"
    "https://example/x86" OS.linux Arch.x86_64).2.2 (by decide) (by decide) (by decide)

/-- C6 counterexample: a version below the floor with major ≤ 10 on
Linux/arm64-sbsa fails with the unsupported-version error, not the
unsupported-combination error the claim promises for every major ≤ 10
version on that target. -/
theorem getCudaLocalInstallerUrl_floor_first_cex :
    getCudaLocalInstallerUrl (fun _ => none) "8.0" (.ok []) "7.5" OS.linux Arch.arm64_sbsa
      = .error .unsupportedVersion
    ∧ getCudaLocalInstallerUrl (fun _ => none) "8.0" (.ok []) "7.5" OS.linux Arch.arm64_sbsa
      ≠ .error .unsupportedCombination
    ∧ majorLe10 "7.5" = true :=
  ⟨by decide, by decide, by decide⟩

/-- C7: the `cuda-keyring` pattern is a `g`-flagged regex whose `lastIndex`
persists across the `filter` callbacks, so with two equally long keyring
files the second is tested from the middle of the string and dropped: the
code returns the first file although the last matching file after
lexicographic sort — the claimed result, computed here with the stateless
test — is the second one. -/
theorem findRepoFilename_keyring_bug :
    findRepoFilename ["cuda-keyring_1.0-1_all.deb", "cuda-keyring_1.1-1_all.deb"]
        ubuntuJammy = .ok "cuda-keyring_1.0-1_all.deb"
    ∧ (sortStrings (List.filter (fun f => regexTest "cuda-keyring_".data ".deb".data f)
        ["cuda-keyring_1.0-1_all.deb", "cuda-keyring_1.1-1_all.deb"])).getLastD ""
        = "cuda-keyring_1.1-1_all.deb"
    ∧ ("cuda-keyring_1.0-1_all.deb" : String) ≠ "cuda-keyring_1.1-1_all.deb" :=
  ⟨by decide, by decide, by decide⟩

/-- C8: once the repository and its registration file are found, the package
candidates are non-empty and the reported package name is extracted from
exactly the first (sorted) candidate on a Debian-family distribution and
from exactly the last candidate otherwise (the Fedora family). -/
theorem findCudaRepoAndPackageLinux_selection (osList repoFiles : List String)
    (cudaVersion fname : String) (arch : Arch) (osInfo : LinuxDistribution)
    (avail : List String)
    (hos : buildTargetOsName osInfo ∈ osList)
    (hfile : findRepoFilename repoFiles osInfo = .ok fname)
    (hpkgs : findAvailablePackages repoFiles cudaVersion osInfo = .ok avail) :
    avail ≠ []
    ∧ (isDebianBased osInfo = true →
        findCudaRepoAndPackageLinux osList repoFiles cudaVersion arch osInfo =
          .ok ⟨buildCudaRepoUrl (buildTargetOsName osInfo) arch ++ fname,
               extractPackageName (avail.headD "") osInfo⟩)
    ∧ (isDebianBased osInfo = false →
        findCudaRepoAndPackageLinux osList repoFiles cudaVersion arch osInfo =
          .ok ⟨buildCudaRepoUrl (buildTargetOsName osInfo) arch ++ fname,
               extractPackageName (avail.getLastD "") osInfo⟩) := by
  have hne : avail ≠ [] := by
    unfold findAvailablePackages at hpkgs
    by_cases hE : (availablePackagesFor repoFiles cudaVersion osInfo).isEmpty = true
    · rw [if_pos hE] at hpkgs
      cases hpkgs
    · rw [if_neg hE] at hpkgs
      cases hpkgs
      simpa using hE
  refine ⟨hne, fun hdeb => ?_, fun hdeb => ?_⟩
  · simp only [findCudaRepoAndPackageLinux, if_pos hos, hfile, hpkgs, hdeb, if_true]
  · simp only [findCudaRepoAndPackageLinux, if_pos hos, hfile, hpkgs, hdeb, if_false,
      Bool.false_eq_true]

/-- Closed instance of `findCudaRepoAndPackageLinux_selection` on a concrete
Debian-family repository listing. -/
theorem findCudaRepoAndPackageLinux_selection_witness :
    findCudaRepoAndPackageLinux ["ubuntu2204"]
      ["cuda-keyring_1.1-1_all.deb", "cuda-toolkit_12.4.1_amd64.deb"] "12.4.1"
      Arch.x86_64 ubuntuJammy =
      .ok ⟨"https://developer.download.nvidia.com/compute/cuda/repos/ubuntu2204/x86_64/cuda-keyring_1.1-1_all.deb",
           "cuda-toolkit=12.4.1"⟩ := by
  have h := (findCudaRepoAndPackageLinux_selection ["ubuntu2204"]
    ["cuda-keyring_1.1-1_all.deb", "cuda-toolkit_12.4.1_amd64.deb"] "12.4.1" "cuda-keyring_1.1-1_all.deb"
    Arch.x86_64 ubuntuJammy ["cuda-toolkit_12.4.1_amd64.deb"]
    (by decide) (by decide) (by decide)).2.1 (by decide)
  exact h.trans (by decide)

theorem takeWhile_append_sep {p : Char → Bool} :
    ∀ (l1 : List Char) (sep : Char) (l2 : List Char),
      (∀ x ∈ l1, p x = true) → p sep = false →
      (l1 ++ sep :: l2).takeWhile p = l1
  | [], sep, l2, _, hsep => by simp [List.takeWhile_cons, hsep]
  | a :: l, sep, l2, h, hsep => by
    simp [List.takeWhile_cons, h a (List.mem_cons_self a l),
      takeWhile_append_sep l sep l2 (fun x hx => h x (List.mem_cons_of_mem a hx)) hsep]

theorem dotStarThen_append (sfx r : List Char) (hr : noLineTerm r = true) :
    dotStarThen sfx (r ++ sfx) = true := by
  unfold dotStarThen
  have h1 : (r ++ sfx).length - sfx.length = r.length := by simp
  rw [h1, List.drop_left, List.take_left, hr]
  simp [List.isPrefixOf_iff_prefix, List.length_append]

theorem debMatch_shape (p v r : List Char)
    (hp : p ≠ []) (hv : v ≠ []) (hpu : ('_' : Char) ∉ p) (hvu : ('_' : Char) ∉ v)
    (hr : noLineTerm r = true) :
    debMatch (p ++ '_' :: (v ++ '_' :: (r ++ ".deb".data))) = some (p, v) := by
  have h1 : (p ++ '_' :: (v ++ '_' :: (r ++ ".deb".data))).takeWhile
      (fun c => decide (c ≠ '_')) = p :=
    takeWhile_append_sep p '_' _
      (fun x hx => by
        simp only [decide_eq_true_eq]
        intro he
        exact hpu (he ▸ hx)) (by simp)
  have h2 : (v ++ '_' :: (r ++ ".deb".data)).takeWhile (fun c => decide (c ≠ '_')) = v :=
    takeWhile_append_sep v '_' _
      (fun x hx => by
        simp only [decide_eq_true_eq]
        intro he
        exact hvu (he ▸ hx)) (by simp)
  simp only [debMatch, h1, h2, List.drop_left, List.isEmpty_eq_true, hp, hv,
    if_false, dotStarThen_append ".deb".data r hr, if_true]

theorem rpmTail_shape (d1 d2 d3 rel a : List Char)
    (hd1 : d1 ≠ []) (hd1D : ∀ c ∈ d1, c.isDigit = true)
    (hd2 : d2 ≠ []) (hd2D : ∀ c ∈ d2, c.isDigit = true)
    (hd3 : d3 ≠ []) (hd3D : ∀ c ∈ d3, c.isDigit = true)
    (hrel : rel ≠ []) (hrelD : ∀ c ∈ rel, c.isDigit = true)
    (ha : a ≠ []) (haL : noLineTerm a = true) :
    rpmTail (d1 ++ '.' :: (d2 ++ '.' :: (d3 ++ '-' :: (rel ++ '.' :: (a ++ ".rpm".data))))) =
      some (d1 ++ '.' :: (d2 ++ '.' :: d3), rel) := by
  have t1 := takeWhile_append_sep d1 '.'
    (d2 ++ '.' :: (d3 ++ '-' :: (rel ++ '.' :: (a ++ ".rpm".data)))) hd1D (by decide)
  have t2 := takeWhile_append_sep d2 '.'
    (d3 ++ '-' :: (rel ++ '.' :: (a ++ ".rpm".data))) hd2D (by decide)
  have t3 := takeWhile_append_sep d3 '-'
    (rel ++ '.' :: (a ++ ".rpm".data)) hd3D (by decide)
  have t4 := takeWhile_append_sep rel '.' (a ++ ".rpm".data) hrelD (by decide)
  have hlen4 : (a ++ ".rpm".data).length - 4 = a.length := by simp
  have hfive : 5 ≤ (a ++ ".rpm".data).length := by
    have h1 := List.length_pos.2 ha
    have h2 : (".rpm".data).length = 4 := by decide
    simp only [List.length_append, h2]
    omega
  simp only [rpmTail, t1, t2, t3, t4, List.drop_left, List.isEmpty_eq_true, hd1, hd2, hd3,
    hrel, if_false, hlen4, List.take_left, haL, hfive, decide_eq_true_eq, if_true,
    (by decide : (".rpm".data.isPrefixOf ".rpm".data) = true), Bool.and_self, and_true,
    true_and]
  simp

theorem rpmTail_eq_none_of_no_dash (cs : List Char) (h : ('-' : Char) ∉ cs) :
    rpmTail cs = none := by
  by_contra hne
  obtain ⟨x, hx⟩ : ∃ x, rpmTail cs = some x := by
    cases hrt : rpmTail cs
    · exact absurd hrt hne
    · exact ⟨_, rfl⟩
  apply h
  simp only [rpmTail] at hx
  split at hx
  · exact Option.noConfusion hx
  split at hx
  case _ r1 heq1 =>
    split at hx
    · exact Option.noConfusion hx
    split at hx
    case _ r2 heq2 =>
      split at hx
      · exact Option.noConfusion hx
      split at hx
      case _ r3 heq3 =>
        have hmem : ('-' : Char) ∈ r2.drop (r2.takeWhile Char.isDigit).length := by
          rw [heq3]
          exact List.mem_cons_self _ _
        have hmem2 : ('-' : Char) ∈ ('.' : Char) :: r2 :=
          List.mem_cons_of_mem _ (List.mem_of_mem_drop hmem)
        rw [← heq2] at hmem2
        have hmem3 : ('-' : Char) ∈ ('.' : Char) :: r1 :=
          List.mem_cons_of_mem _ (List.mem_of_mem_drop hmem2)
        rw [← heq1] at hmem3
        exact List.mem_of_mem_drop hmem3
      case _ => exact Option.noConfusion hx
    case _ => exact Option.noConfusion hx
  case _ => exact Option.noConfusion hx

theorem rpmMatchAux_stable (cs : List Char) (k0 : Nat)
    (hstep : ∀ m, k0 < m → ∀ rest, cs.drop m = '-' :: rest → rpmTail rest = none) :
    ∀ k, rpmMatchAux cs (k0 + k) = rpmMatchAux cs k0 := by
  intro k
  induction k with
  | zero => rfl
  | succ n ih =>
    have hkk : k0 + (n + 1) = (k0 + n) + 1 := by omega
    rw [hkk]
    cases hdrop : cs.drop (k0 + n + 1) with
    | nil => simpa [rpmMatchAux, hdrop] using ih
    | cons c rest =>
      by_cases hc : c = '-'
      · subst hc
        have hnone := hstep (k0 + n + 1) (by omega) rest hdrop
        simp only [rpmMatchAux, hdrop, hnone]
        exact ih
      · simp only [rpmMatchAux, hdrop]
        split
        · rename_i heq
          injection heq with h1 h2
          exact absurd h1 hc
        · exact ih

theorem rpmMatch_shape (pkg d1 d2 d3 rel a : List Char)
    (hpkg : pkg ≠ []) (hpkgL : noLineTerm pkg = true)
    (hd1 : d1 ≠ []) (hd1D : ∀ c ∈ d1, c.isDigit = true)
    (hd2 : d2 ≠ []) (hd2D : ∀ c ∈ d2, c.isDigit = true)
    (hd3 : d3 ≠ []) (hd3D : ∀ c ∈ d3, c.isDigit = true)
    (hrel : rel ≠ []) (hrelD : ∀ c ∈ rel, c.isDigit = true)
    (ha : a ≠ []) (haL : noLineTerm a = true) (haND : ('-' : Char) ∉ a) :
    rpmMatch (pkg ++ '-' :: (d1 ++ '.' :: (d2 ++ '.' :: (d3 ++ '-' ::
        (rel ++ '.' :: (a ++ ".rpm".data)))))) =
      some (pkg, d1 ++ '.' :: (d2 ++ '.' :: d3), rel) := by
  set tail2 := rel ++ '.' :: (a ++ ".rpm".data) with htail2
  set T := d1 ++ '.' :: (d2 ++ '.' :: (d3 ++ '-' :: tail2)) with hT
  set v := d1 ++ '.' :: (d2 ++ '.' :: d3) with hv
  set cs := pkg ++ '-' :: T with hcs
  have hTv : T = v ++ '-' :: tail2 := by
    rw [hT, hv]
    simp [List.append_assoc]
  have hvND : ('-' : Char) ∉ v := by
    intro hm
    rw [hv] at hm
    simp only [List.mem_append, List.mem_cons] at hm
    rcases hm with h | h | h | h | h
    · exact absurd (hd1D _ h) (by decide)
    · exact absurd h (by decide)
    · exact absurd (hd2D _ h) (by decide)
    · exact absurd h (by decide)
    · exact absurd (hd3D _ h) (by decide)
  have h2ND : ('-' : Char) ∉ tail2 := by
    intro hm
    rw [htail2] at hm
    simp only [List.mem_append, List.mem_cons] at hm
    rcases hm with h | h | h | h
    · exact absurd (hrelD _ h) (by decide)
    · exact absurd h (by decide)
    · exact absurd h haND
    · exact absurd h (by decide)
  have hstep : ∀ m, pkg.length < m → ∀ rest, cs.drop m = '-' :: rest →
      rpmTail rest = none := by
    intro m hm rest hdrop
    have e1 : pkg.length + (m - pkg.length) = m := by omega
    have hdropT : List.drop (m - pkg.length) ('-' :: T) = '-' :: rest := by
      have h0 := @List.drop_append _ pkg ('-' :: T) (m - pkg.length)
      rw [e1] at h0
      rw [← h0]
      rw [hcs] at hdrop
      exact hdrop
    have e2 : m - pkg.length = (m - pkg.length - 1) + 1 := by omega
    rw [e2, List.drop_succ_cons] at hdropT
    rw [hTv] at hdropT
    rcases Nat.lt_trichotomy (m - pkg.length - 1) v.length with hj | hj | hj
    · exfalso
      rw [List.drop_append_of_le_length (by omega)] at hdropT
      cases hvd : v.drop (m - pkg.length - 1) with
      | nil =>
        have hld := List.length_drop (m - pkg.length - 1) v
        rw [hvd] at hld
        simp at hld
        omega
      | cons c w =>
        rw [hvd, List.cons_append] at hdropT
        have hc : c = '-' := (List.cons.inj hdropT).1
        have hcv : c ∈ v := List.mem_of_mem_drop (hvd ▸ List.mem_cons_self c w)
        rw [hc] at hcv
        exact hvND hcv
    · rw [hj, List.drop_left] at hdropT
      have hrest : rest = tail2 := ((List.cons.inj hdropT).2).symm
      rw [hrest]
      exact rpmTail_eq_none_of_no_dash tail2 h2ND
    · exfalso
      have h0 := @List.drop_append _ v ('-' :: tail2)
        (m - pkg.length - 1 - v.length)
      rw [(by omega : v.length + (m - pkg.length - 1 - v.length) = m - pkg.length - 1)] at h0
      rw [h0] at hdropT
      rw [(by omega : m - pkg.length - 1 - v.length =
        (m - pkg.length - 1 - v.length - 1) + 1), List.drop_succ_cons] at hdropT
      have : ('-' : Char) ∈ tail2 :=
        List.mem_of_mem_drop (hdropT ▸ List.mem_cons_self '-' rest)
      exact h2ND this
  obtain ⟨q, pkg', rfl⟩ : ∃ q pkg', pkg = q :: pkg' := by
    cases pkg with
    | nil => exact absurd rfl hpkg
    | cons q p => exact ⟨q, p, rfl⟩
  have hrt : rpmTail T = some (v, rel) := by
    rw [hT, hv, htail2]
    exact rpmTail_shape d1 d2 d3 rel a hd1 hd1D hd2 hd2D hd3 hd3D hrel hrelD ha haL
  have hdl : cs.drop (pkg'.length + 1) = '-' :: T := by
    rw [hcs]
    exact List.drop_left (q :: pkg') ('-' :: T)
  have htl : cs.take (pkg'.length + 1) = q :: pkg' := by
    rw [hcs]
    exact List.take_left (q :: pkg') ('-' :: T)
  have hlen : (q :: pkg').length ≤ cs.length := by
    rw [hcs]
    simp
  have hsplit : cs.length = (q :: pkg').length + (cs.length - (q :: pkg').length) := by
    omega
  show rpmMatchAux cs cs.length = some (q :: pkg', v, rel)
  rw [hsplit, rpmMatchAux_stable cs (q :: pkg').length hstep (cs.length - (q :: pkg').length)]
  simp only [List.length_cons, rpmMatchAux, hdl, hrt, htl, hpkgL, if_true]

/-- C9: under a Debian-family distribution `extractPackageName` maps a
filename of shape `<pkg>_<version>_<arch>.deb` to `<pkg>=<version>` and
under a Fedora-family distribution it maps
`<pkg>-<version>-<release>.<arch>.rpm` (three-component numeric version,
numeric release, dash-free arch) to `<pkg>-<version>-<release>`; a filename
the family's pattern does not match is returned unchanged; in particular
`"cuda-toolkit_12.4.1_amd64.deb"` maps to `"cuda-toolkit=12.4.1"` and
`"cuda-toolkit-12-4-12.4.1-1.x86_64.rpm"` to `"cuda-toolkit-12-4-12.4.1-1"`. -/
theorem extractPackageName_spec (osInfo : LinuxDistribution) (f : String) :
    (∀ p v r : List Char, isDebianBased osInfo = true →
      p ≠ [] → v ≠ [] → ('_' : Char) ∉ p → ('_' : Char) ∉ v → noLineTerm r = true →
      extractPackageName (String.mk (p ++ '_' :: (v ++ '_' :: (r ++ ".deb".data)))) osInfo =
        String.mk p ++ "=" ++ String.mk v)
    ∧ (∀ pkg d1 d2 d3 rel a : List Char,
        isDebianBased osInfo = false → isFedoraBased osInfo = true →
        pkg ≠ [] → noLineTerm pkg = true →
        d1 ≠ [] → (∀ c ∈ d1, c.isDigit = true) →
        d2 ≠ [] → (∀ c ∈ d2, c.isDigit = true) →
        d3 ≠ [] → (∀ c ∈ d3, c.isDigit = true) →
        rel ≠ [] → (∀ c ∈ rel, c.isDigit = true) →
        a ≠ [] → noLineTerm a = true → ('-' : Char) ∉ a →
        extractPackageName (String.mk (pkg ++ '-' :: (d1 ++ '.' :: (d2 ++ '.' :: (d3 ++ '-' ::
            (rel ++ '.' :: (a ++ ".rpm".data))))))) osInfo =
          String.mk pkg ++ "-" ++ String.mk (d1 ++ '.' :: (d2 ++ '.' :: d3)) ++ "-"
            ++ String.mk rel)
    ∧ (isDebianBased osInfo = true → debMatch f.data = none →
        extractPackageName f osInfo = f)
    ∧ (isDebianBased osInfo = false → isFedoraBased osInfo = true → rpmMatch f.data = none →
        extractPackageName f osInfo = f)
    ∧ extractPackageName "cuda-toolkit_12.4.1_amd64.deb" ubuntuJammy = "cuda-toolkit=12.4.1"
    ∧ extractPackageName "cuda-toolkit-12-4-12.4.1-1.x86_64.rpm" fedora40 =
        "cuda-toolkit-12-4-12.4.1-1" := by
  refine ⟨?_, ?_, ?_, ?_, by decide, by decide⟩
  · intro p v r hdeb hp hv hpu hvu hr
    simp only [extractPackageName, hdeb, if_true]
    have hdm := debMatch_shape p v r hp hv hpu hvu hr
    rw [show (".deb".data : List Char) = ['.', 'd', 'e', 'b'] from rfl] at hdm
    rw [hdm]
  · intro pkg d1 d2 d3 rel a hdeb hfed hpkg hpkgL hd1 hd1D hd2 hd2D hd3 hd3D hrel hrelD
      ha haL haND
    simp only [extractPackageName, hdeb, hfed, Bool.false_eq_true, if_false, if_true]
    have hrm := rpmMatch_shape pkg d1 d2 d3 rel a hpkg hpkgL hd1 hd1D hd2 hd2D hd3 hd3D
      hrel hrelD ha haL haND
    rw [show (".rpm".data : List Char) = ['.', 'r', 'p', 'm'] from rfl] at hrm
    rw [hrm]
  · intro hdeb hnone
    simp only [extractPackageName, hdeb, if_true, hnone]
  · intro hdeb hfed hnone
    simp only [extractPackageName, hdeb, hfed, Bool.false_eq_true, if_false, if_true, hnone]

/-- Closed instance of `extractPackageName_spec`: the Debian shape rule at a
concrete filename. -/
theorem extractPackageName_spec_witness :
    extractPackageName (String.mk ("pkgx".data ++ '_' :: ("1.2".data ++ '_' ::
        ("all".data ++ ".deb".data)))) ubuntuJammy =
      String.mk ("pkgx".data) ++ "=" ++ String.mk ("1.2".data) :=
  (extractPackageName_spec ubuntuJammy "x").1 ("pkgx".data) ("1.2".data) ("all".data)
    (by decide) (by decide) (by decide) (by decide) (by decide) (by decide)
